import Mathlib

/-!
Verification of `lib/Dialect/Dialect.cpp` (llvm-dialects).

The file implements a process-wide registry mapping `LLVMContext *` handles
to `DialectContext *` extension blocks, with a per-thread lookup cache, a
key/slot allocator, a variable-length extension-state block, and two string
classification predicates.

Shallow embedding conventions:
* `LLVMContext *` handles, `DialectContext *` blocks and thread ids are
  modelled as naturals (`Handle`, `Block`, `Thread`); null pointers become
  `Option.none`.
* The mutex-serialized operations of `ContextMap` and
  `CurrentContextCache::get` are modelled as atomic steps on an explicit
  state (`ContextMap` below) that carries the global map together with
  every thread's cache; the mutex guarantees this interleaving semantics.
  Since every thread's cache is registered in the intrusive cache list
  while the thread is live, the cache component is a total function from
  thread ids to cache records.
* `assert(...)` conditions become explicit `Prop`s (`insertOk`,
  `removeOk`); well-formed executions (`Reachable`) only take steps whose
  assertion holds, mirroring the caller contracts documented in the code.
-/

namespace LLVMDialects

abbrev Handle := Nat
abbrev Block := Nat
abbrev Thread := Nat

/-- One thread's `CurrentContextCache`: the atomic `m_llvmContext` field and
the `m_dialectContext` field (`none` models a null pointer). -/
structure CurrentContextCache where
  m_llvmContext : Option Handle
  m_dialectContext : Option Block
deriving DecidableEq, Repr

/-- A freshly constructed cache: both fields null. -/
def CurrentContextCache.init : CurrentContextCache := ⟨none, none⟩

/-- The `ContextMap` singleton state: the `m_map` DenseMap from LLVMContext
to DialectContext, together with every live thread's cache (the intrusive
`m_caches` list, represented as a total function on thread ids). -/
structure ContextMap where
  m_map : Handle → Option Block
  caches : Thread → CurrentContextCache

/-- Initial state: empty map, every cache null. -/
def ContextMap.init : ContextMap :=
  ⟨fun _ => none, fun _ => CurrentContextCache.init⟩

/-- The assertion in `ContextMap::insert`: `try_emplace` inserts exactly
when the handle is absent. -/
def ContextMap.insertOk (s : ContextMap) (h : Handle) : Prop :=
  s.m_map h = none

/-- `ContextMap::insert`: store the (handle, block) pair in the map. -/
def ContextMap.insert (s : ContextMap) (h : Handle) (b : Block) : ContextMap :=
  { s with m_map := fun h' => if h' = h then some b else s.m_map h' }

/-- The assertion in `ContextMap::remove`:
`m_map.lookup(llvmContext) == dialectContext`. -/
def ContextMap.removeOk (s : ContextMap) (h : Handle) (b : Block) : Prop :=
  s.m_map h = some b

/-- `ContextMap::remove`: erase the mapping and scrub every cache whose
`m_llvmContext` equals the removed handle by storing null into that atomic
field (the `m_dialectContext` field is left as-is by the loop). -/
def ContextMap.remove (s : ContextMap) (h : Handle) (_b : Block) : ContextMap :=
  { m_map := fun h' => if h' = h then none else s.m_map h'
    caches := fun t =>
      let c := s.caches t
      if c.m_llvmContext = some h then { c with m_llvmContext := none } else c }

/-- `CurrentContextCache::get` called from thread `t` with context `h`:
fast path returns the cached block when the cached handle matches; slow
path (under the mutex) looks `h` up in the global map, stores the
(handle, block) pair into the caller's cache and returns the block.
Returns the looked-up block together with the successor state. -/
def CurrentContextCache.get (s : ContextMap) (t : Thread) (h : Handle) :
    Option Block × ContextMap :=
  if (s.caches t).m_llvmContext = some h then
    ((s.caches t).m_dialectContext, s)
  else
    let b := s.m_map h
    (b, { s with
          caches := fun t' => if t' = t then ⟨some h, b⟩ else s.caches t' })

/-- States reachable by well-formed executions: `createExtensionState`
(i.e. the `DialectContext` constructor calling `insert`) only for an
unregistered handle, `destroyExtensionState` (destructor calling `remove`)
only with the matching block, and `getExtensionState` only for a handle
with an active registration (the documented caller contract of
`DialectContext::get`). -/
inductive Reachable : ContextMap → Prop
  | init : Reachable ContextMap.init
  | create {s : ContextMap} {h : Handle} {b : Block} :
      Reachable s → s.m_map h = none → Reachable (s.insert h b)
  | destroy {s : ContextMap} {h : Handle} {b : Block} :
      Reachable s → s.m_map h = some b → Reachable (s.remove h b)
  | lookup {s : ContextMap} (t : Thread) {h : Handle} :
      Reachable s → s.m_map h ≠ none → Reachable (CurrentContextCache.get s t h).2

/-- Cache coherence invariant: any cache entry with a non-null handle holds
exactly the block currently registered for that handle. -/
def CacheInv (s : ContextMap) : Prop :=
  ∀ t h, (s.caches t).m_llvmContext = some h →
    (s.caches t).m_dialectContext = s.m_map h ∧ s.m_map h ≠ none

lemma cacheInv_init : CacheInv ContextMap.init := by
  intro t h hc
  simp [ContextMap.init, CurrentContextCache.init] at hc

lemma cacheInv_insert {s : ContextMap} {h0 : Handle} {b0 : Block}
    (hinv : CacheInv s) (hfree : s.m_map h0 = none) :
    CacheInv (s.insert h0 b0) := by
  intro t h hc
  have hc' : (s.caches t).m_llvmContext = some h := hc
  obtain ⟨hb, hne⟩ := hinv t h hc'
  have hhh : h ≠ h0 := by
    intro he; exact hne (he ▸ hfree)
  constructor
  · simpa [ContextMap.insert, hhh] using hb
  · simpa [ContextMap.insert, hhh] using hne

lemma cacheInv_remove {s : ContextMap} {h0 : Handle} {b0 : Block}
    (hinv : CacheInv s) : CacheInv (s.remove h0 b0) := by
  intro t h hc
  by_cases hold : (s.caches t).m_llvmContext = some h0
  · simp [ContextMap.remove, hold] at hc
  · have hc' : (s.caches t).m_llvmContext = some h := by
      simpa [ContextMap.remove, hold] using hc
    obtain ⟨hb, hne⟩ := hinv t h hc'
    have hhh : h ≠ h0 := by
      intro he; exact hold (he ▸ hc')
    constructor
    · simpa [ContextMap.remove, hold, hhh] using hb
    · simpa [ContextMap.remove, hhh] using hne

lemma cacheInv_get {s : ContextMap} (t0 : Thread) {h0 : Handle}
    (hinv : CacheInv s) (hreg : s.m_map h0 ≠ none) :
    CacheInv (CurrentContextCache.get s t0 h0).2 := by
  by_cases hhit : (s.caches t0).m_llvmContext = some h0
  · simpa [CurrentContextCache.get, hhit] using hinv
  · intro t h hc
    by_cases ht : t = t0
    · subst ht
      simp [CurrentContextCache.get, hhit] at hc ⊢
      obtain rfl : h0 = h := by simpa using hc
      exact ⟨rfl, hreg⟩
    · have hc' : (s.caches t).m_llvmContext = some h := by
        simpa [CurrentContextCache.get, hhit, ht] using hc
      obtain ⟨hb, hne⟩ := hinv t h hc'
      constructor
      · simpa [CurrentContextCache.get, hhit, ht] using hb
      · simpa [CurrentContextCache.get, hhit] using hne

/-- Every reachable state satisfies the cache coherence invariant. -/
lemma cacheInv_reachable {s : ContextMap} (hr : Reachable s) : CacheInv s := by
  induction hr with
  | init => exact cacheInv_init
  | create _ hfree ih => exact cacheInv_insert ih hfree
  | destroy _ _ ih => exact cacheInv_remove ih
  | lookup t _ hreg ih => exact cacheInv_get t ih hreg

/-- The state after warming thread `t`'s cache: insert block `b` for
handle `h`, then perform one lookup from `t`. -/
def warmState (s : ContextMap) (t : Thread) (h : Handle) (b : Block) : ContextMap :=
  (CurrentContextCache.get (s.insert h b) t h).2

/-- A small concrete state used for witnesses: handle 1 registered with
block 7, thread 0's cache warmed by a lookup. -/
def exampleWarm : ContextMap := warmState ContextMap.init 0 1 7

/-- Claim C1: in any reachable state in which handle `h` is registered with
block `b`, `getExtensionState(h)` from any thread `t` returns exactly `b`,
both on the cache-hit fast path and on the cache-miss slow path; and on a
miss the slow path stores the (handle, block) pair into the caller's
thread-local cache. -/
theorem getExtensionState_correct (s : ContextMap) (t : Thread) (h : Handle) (b : Block)
    (hr : Reachable s) (hb : s.m_map h = some b) :
    (CurrentContextCache.get s t h).1 = some b ∧
      ((s.caches t).m_llvmContext ≠ some h →
        ((CurrentContextCache.get s t h).2).caches t = ⟨some h, some b⟩) := by
  have hinv := cacheInv_reachable hr
  by_cases hhit : (s.caches t).m_llvmContext = some h
  · obtain ⟨hbc, _⟩ := hinv t h hhit
    exact ⟨by simp [CurrentContextCache.get, hhit, hbc, hb],
           fun hne => absurd hhit hne⟩
  · exact ⟨by simp [CurrentContextCache.get, hhit, hb],
           fun _ => by simp [CurrentContextCache.get, hhit, hb]⟩

/-- Witness for C1 at a concrete reachable state (cache-miss path). -/
theorem getExtensionState_correct_witness :
    (CurrentContextCache.get (ContextMap.init.insert 1 7) 0 1).1 = some 7 ∧
      (((ContextMap.init.insert 1 7).caches 0).m_llvmContext ≠ some 1 →
        ((CurrentContextCache.get (ContextMap.init.insert 1 7) 0 1).2).caches 0
          = ⟨some 1, some 7⟩) :=
  getExtensionState_correct (ContextMap.init.insert 1 7) 0 1 7
    (Reachable.create Reachable.init (by decide)) (by decide)

/-- Claim C2: `ContextMap::remove(h, b)` asserts that the stored block for
`h` is `b`; on success it erases the mapping for `h` (other handles
untouched), clears the handle field of every thread's cache entry whose
cached handle equals `h`, and leaves caches holding a different handle
completely unchanged. -/
theorem remove_spec (s : ContextMap) (h : Handle) (b : Block) :
    (s.m_map h ≠ some b → ¬ s.removeOk h b) ∧
    (s.remove h b).m_map h = none ∧
    (∀ h', h' ≠ h → (s.remove h b).m_map h' = s.m_map h') ∧
    (∀ t, (s.caches t).m_llvmContext = some h →
        ((s.remove h b).caches t).m_llvmContext = none) ∧
    (∀ t, (s.caches t).m_llvmContext ≠ some h →
        (s.remove h b).caches t = s.caches t) := by
  refine ⟨fun hne hok => hne hok, by simp [ContextMap.remove], ?_, ?_, ?_⟩
  · intro h' hne; simp [ContextMap.remove, hne]
  · intro t hc; simp [ContextMap.remove, hc]
  · intro t hc; simp [ContextMap.remove, hc]

/-- Witness for C2 at a concrete state with a warmed cache. -/
theorem remove_spec_witness :
    (exampleWarm.m_map 1 ≠ some 7 → ¬ exampleWarm.removeOk 1 7) ∧
    (exampleWarm.remove 1 7).m_map 1 = none ∧
    (∀ h', h' ≠ 1 → (exampleWarm.remove 1 7).m_map h' = exampleWarm.m_map h') ∧
    (∀ t, (exampleWarm.caches t).m_llvmContext = some 1 →
        ((exampleWarm.remove 1 7).caches t).m_llvmContext = none) ∧
    (∀ t, (exampleWarm.caches t).m_llvmContext ≠ some 1 →
        (exampleWarm.remove 1 7).caches t = exampleWarm.caches t) :=
  remove_spec exampleWarm 1 7

/-- Claim C3: create handle `h` with block `b1`, look it up from thread `t`
(warming `t`'s cache), destroy it, re-create the same handle value with a
new block `b2`; a subsequent lookup from `t` returns `b2`, never the
destroyed `b1`, even though `t`'s cache previously held `h`.  The first
two conjuncts record that the destroy and re-create steps satisfy their
assertions. -/
theorem cache_coherence_handle_reuse (s : ContextMap) (t : Thread) (h : Handle)
    (b1 b2 : Block) (hfree : s.m_map h = none) (hne : b1 ≠ b2) :
    s.insertOk h ∧
    (warmState s t h b1).removeOk h b1 ∧
    ((warmState s t h b1).remove h b1).insertOk h ∧
    (CurrentContextCache.get (((warmState s t h b1).remove h b1).insert h b2) t h).1
      = some b2 ∧
    (CurrentContextCache.get (((warmState s t h b1).remove h b1).insert h b2) t h).1
      ≠ some b1 := by
  have hmap2 : (warmState s t h b1).m_map h = some b1 := by
    by_cases hhit : (s.caches t).m_llvmContext = some h
    · simp [warmState, CurrentContextCache.get, ContextMap.insert, hhit]
    · simp [warmState, CurrentContextCache.get, ContextMap.insert, hhit]
  have hcache2 : ((warmState s t h b1).caches t).m_llvmContext = some h := by
    by_cases hhit : (s.caches t).m_llvmContext = some h
    · simp only [warmState, CurrentContextCache.get, ContextMap.insert]
      simp [hhit]
    · simp [warmState, CurrentContextCache.get, ContextMap.insert, hhit]
  have hcache3 :
      (((warmState s t h b1).remove h b1).caches t).m_llvmContext = none := by
    simp [ContextMap.remove, hcache2]
  have hmiss :
      ((((warmState s t h b1).remove h b1).insert h b2).caches t).m_llvmContext
        ≠ some h := by
    simp [ContextMap.insert, hcache3]
  have hmap4 :
      (((warmState s t h b1).remove h b1).insert h b2).m_map h = some b2 := by
    simp [ContextMap.insert]
  refine ⟨hfree, hmap2, by simp [ContextMap.insertOk, ContextMap.remove], ?_, ?_⟩
  · simp [CurrentContextCache.get, hmiss, hmap4]
  · simp [CurrentContextCache.get, hmiss, hmap4]
    exact fun he => hne he.symm

/-- Witness for C3 with handle 1, first block 2, second block 3, thread 0. -/
theorem cache_coherence_handle_reuse_witness :
    ContextMap.init.insertOk 1 ∧
    (warmState ContextMap.init 0 1 2).removeOk 1 2 ∧
    ((warmState ContextMap.init 0 1 2).remove 1 2).insertOk 1 ∧
    (CurrentContextCache.get
        (((warmState ContextMap.init 0 1 2).remove 1 2).insert 1 3) 0 1).1
      = some 3 ∧
    (CurrentContextCache.get
        (((warmState ContextMap.init 0 1 2).remove 1 2).insert 1 3) 0 1).1
      ≠ some 2 :=
  cache_coherence_handle_reuse ContextMap.init 0 1 2 3 (by decide) (by decide)

/-- Claim C4: at most one live block is registered per handle (the map is
single-valued); `insert` fails its assertion exactly when the handle is
already present, and succeeds when it was absent — after which a second
insert for the same handle fails. -/
theorem insert_unique (s : ContextMap) (h : Handle) (b : Block) :
    (s.m_map h ≠ none → ¬ s.insertOk h) ∧
    (s.m_map h = none →
      s.insertOk h ∧ (s.insert h b).m_map h = some b ∧
        ¬ (s.insert h b).insertOk h) ∧
    (∀ b1 b2, s.m_map h = some b1 → s.m_map h = some b2 → b1 = b2) := by
  refine ⟨fun hne hok => hne hok, ?_, ?_⟩
  · intro hfree
    exact ⟨hfree, by simp [ContextMap.insert],
           by simp [ContextMap.insert, ContextMap.insertOk]⟩
  · intro b1 b2 h1 h2
    rw [h1] at h2
    exact Option.some.inj h2

/-- Witness for C4 at the initial state with handle 1, block 5. -/
theorem insert_unique_witness :
    (ContextMap.init.m_map 1 ≠ none → ¬ ContextMap.init.insertOk 1) ∧
    (ContextMap.init.m_map 1 = none →
      ContextMap.init.insertOk 1 ∧ (ContextMap.init.insert 1 5).m_map 1 = some 5 ∧
        ¬ (ContextMap.init.insert 1 5).insertOk 1) ∧
    (∀ b1 b2, ContextMap.init.m_map 1 = some b1 →
      ContextMap.init.m_map 1 = some b2 → b1 = b2) :=
  insert_unique ContextMap.init 1 5

/-!
The key/slot allocator of `Dialect::Key`.  The static
`getRegisteredKeys()` vector is modelled as a `List (Option K)` threaded
through the operations: entry `none` is a freed slot (null `Key *`),
entry `some k` is the live key stored there.  `K` stands for the identity
of a `Key` object (its address).
-/

/-- `Dialect::Key::Key()`: scan the registered-keys vector for the first
null entry and take its index; if every entry is occupied, append at the
end with index `keys.size()`.  Returns the assigned `m_index` together
with the updated vector. -/
def keyAcquire {K : Type} (keys : List (Option K)) (k : K) : Nat × List (Option K) :=
  match keys with
  | [] => (0, [some k])
  | none :: rest => (0, some k :: rest)
  | some x :: rest => ((keyAcquire rest k).1 + 1, some x :: (keyAcquire rest k).2)

/-- `Dialect::Key::~Key()`: null out the key's entry
(`getRegisteredKeys()[m_index] = nullptr`). -/
def keyRelease {K : Type} (keys : List (Option K)) (i : Nat) : List (Option K) :=
  keys.set i none

lemma keyAcquire_get_self {K : Type} (keys : List (Option K)) (k : K) :
    (keyAcquire keys k).2.get? (keyAcquire keys k).1 = some (some k) := by
  induction keys with
  | nil => rfl
  | cons o rest ih =>
    cases o with
    | none => rfl
    | some x => simpa [keyAcquire] using ih

lemma keyAcquire_get_ne {K : Type} (keys : List (Option K)) (k : K) (j : Nat)
    (hj : j ≠ (keyAcquire keys k).1) :
    (keyAcquire keys k).2.get? j = keys.get? j := by
  induction keys generalizing j with
  | nil =>
    cases j with
    | zero => exact absurd rfl hj
    | succ n => simp [keyAcquire]
  | cons o rest ih =>
    cases o with
    | none =>
      cases j with
      | zero => exact absurd rfl hj
      | succ n => simp [keyAcquire]
    | some x =>
      cases j with
      | zero => simp [keyAcquire]
      | succ n =>
        have hn : n ≠ (keyAcquire rest k).1 := by
          intro he
          exact hj (by simp [keyAcquire, he])
        simpa [keyAcquire] using ih n hn

lemma keyAcquire_lt_occupied {K : Type} (keys : List (Option K)) (k : K) (j : Nat)
    (hj : j < (keyAcquire keys k).1) :
    ∃ x, keys.get? j = some (some x) := by
  induction keys generalizing j with
  | nil => simp [keyAcquire] at hj
  | cons o rest ih =>
    cases o with
    | none => simp [keyAcquire] at hj
    | some x =>
      cases j with
      | zero => exact ⟨x, rfl⟩
      | succ n =>
        have hn : n < (keyAcquire rest k).1 := by
          simpa [keyAcquire, Nat.succ_lt_succ_iff] using hj
        simpa using ih n hn

lemma keyAcquire_full {K : Type} (keys : List (Option K)) (k : K)
    (hfull : ∀ o ∈ keys, o ≠ none) :
    (keyAcquire keys k).1 = keys.length ∧
      (keyAcquire keys k).2 = keys ++ [some k] := by
  induction keys with
  | nil => exact ⟨rfl, rfl⟩
  | cons o rest ih =>
    cases o with
    | none => exact absurd rfl (hfull none (by simp))
    | some x =>
      have h2 := ih (fun o ho => hfull o (List.mem_cons_of_mem _ ho))
      exact ⟨by simp [keyAcquire, h2.1], by simp [keyAcquire, h2.2]⟩

/-- Claim C5: key acquisition assigns the first freed slot in the
registered-keys sequence (every earlier slot is occupied, the chosen slot
receives the new key, all other slots are untouched), and appends a new
highest slot exactly when no slot is free. -/
theorem keyAcquire_first_free {K : Type} (keys : List (Option K)) (k : K) :
    (keyAcquire keys k).2.get? (keyAcquire keys k).1 = some (some k) ∧
    (∀ j, j < (keyAcquire keys k).1 → ∃ x, keys.get? j = some (some x)) ∧
    (∀ j, j ≠ (keyAcquire keys k).1 → (keyAcquire keys k).2.get? j = keys.get? j) ∧
    ((∀ o ∈ keys, o ≠ none) →
      (keyAcquire keys k).1 = keys.length ∧
        (keyAcquire keys k).2 = keys ++ [some k]) :=
  ⟨keyAcquire_get_self keys k, fun j hj => keyAcquire_lt_occupied keys k j hj,
   fun j hj => keyAcquire_get_ne keys k j hj,
   fun hfull => keyAcquire_full keys k hfull⟩

/-- Witness for C5: the k1/k2/k3 scenario from the claim (k1 gets slot 0;
after k1's destruction k2 gets slot 0; k3 then gets fresh slot 1), plus
the theorem applied at a concrete key vector. -/
theorem keyAcquire_first_free_witness :
    ((keyAcquire ([] : List (Option Nat)) 1).1 = 0 ∧
     (keyAcquire (keyRelease (keyAcquire ([] : List (Option Nat)) 1).2 0) 2).1 = 0 ∧
     (keyAcquire
        (keyAcquire (keyRelease (keyAcquire ([] : List (Option Nat)) 1).2 0) 2).2
        3).1 = 1) ∧
    ((keyAcquire ([some 1, none] : List (Option Nat)) 9).2.get?
        (keyAcquire ([some 1, none] : List (Option Nat)) 9).1 = some (some 9) ∧
     (∀ j, j < (keyAcquire ([some 1, none] : List (Option Nat)) 9).1 →
        ∃ x, ([some 1, none] : List (Option Nat)).get? j = some (some x)) ∧
     (∀ j, j ≠ (keyAcquire ([some 1, none] : List (Option Nat)) 9).1 →
        (keyAcquire ([some 1, none] : List (Option Nat)) 9).2.get? j
          = ([some 1, none] : List (Option Nat)).get? j) ∧
     ((∀ o ∈ ([some 1, none] : List (Option Nat)), o ≠ none) →
        (keyAcquire ([some 1, none] : List (Option Nat)) 9).1
            = ([some 1, none] : List (Option Nat)).length ∧
          (keyAcquire ([some 1, none] : List (Option Nat)) 9).2
            = ([some 1, none] : List (Option Nat)) ++ [some 9])) :=
  ⟨by decide, keyAcquire_first_free ([some 1, none] : List (Option Nat)) 9⟩

/-- Key-vector states reachable by serialized key creation/destruction:
a created key is a fresh object (not already stored), a destroyed key is
live at its index (its `m_index` points at itself). -/
inductive KeysReachable {K : Type} : List (Option K) → Prop
  | init : KeysReachable []
  | create {keys : List (Option K)} {k : K} :
      KeysReachable keys → some k ∉ keys → KeysReachable (keyAcquire keys k).2
  | destroy {keys : List (Option K)} {i : Nat} {k : K} :
      KeysReachable keys → keys.get? i = some (some k) →
      KeysReachable (keyRelease keys i)

/-- No key object is stored at two distinct slots. -/
def KeysDistinct {K : Type} (keys : List (Option K)) : Prop :=
  ∀ i j k, keys.get? i = some (some k) → keys.get? j = some (some k) → i = j

lemma keysDistinct_nil {K : Type} : KeysDistinct ([] : List (Option K)) := by
  intro i j k h1 _
  simp at h1

lemma keysDistinct_acquire {K : Type} {keys : List (Option K)} {k : K}
    (hd : KeysDistinct keys) (hfresh : some k ∉ keys) :
    KeysDistinct (keyAcquire keys k).2 := by
  intro i j k' h1 h2
  by_cases hi : i = (keyAcquire keys k).1 <;>
    by_cases hj : j = (keyAcquire keys k).1
  · rw [hi, hj]
  · subst hi
    rw [keyAcquire_get_self] at h1
    obtain rfl : k = k' := by simpa using h1
    rw [keyAcquire_get_ne keys k j hj] at h2
    exact absurd (List.get?_mem h2) hfresh
  · subst hj
    rw [keyAcquire_get_self] at h2
    obtain rfl : k = k' := by simpa using h2
    rw [keyAcquire_get_ne keys k i hi] at h1
    exact absurd (List.get?_mem h1) hfresh
  · rw [keyAcquire_get_ne keys k i hi] at h1
    rw [keyAcquire_get_ne keys k j hj] at h2
    exact hd i j k' h1 h2

lemma keysDistinct_release {K : Type} {keys : List (Option K)} {i : Nat}
    (hd : KeysDistinct keys) : KeysDistinct (keyRelease keys i) := by
  intro a b k' h1 h2
  have ha : keys.get? a = some (some k') := by
    by_cases hai : i = a
    · subst hai
      rw [keyRelease, List.get?_set_eq] at h1
      cases hg : keys.get? i <;> simp [hg] at h1
    · rw [keyRelease, List.get?_set_ne _ _ hai] at h1
      exact h1
  have hb : keys.get? b = some (some k') := by
    by_cases hbi : i = b
    · subst hbi
      rw [keyRelease, List.get?_set_eq] at h2
      cases hg : keys.get? i <;> simp [hg] at h2
    · rw [keyRelease, List.get?_set_ne _ _ hbi] at h2
      exact h2
  exact hd a b k' ha hb

/-- Claim C9: in every reachable key-vector state, no two live keys share
a slot index (the vector maps each live key's index back to that key
uniquely), and destroying a live key empties exactly its own former slot,
leaving every other slot unchanged. -/
theorem key_slot_distinctness {K : Type} (keys : List (Option K))
    (hr : KeysReachable keys) :
    KeysDistinct keys ∧
    (∀ i k, keys.get? i = some (some k) →
      (keyRelease keys i).get? i = some none ∧
      ∀ j, j ≠ i → (keyRelease keys i).get? j = keys.get? j) := by
  constructor
  · induction hr with
    | init => exact keysDistinct_nil
    | create _ hfresh ih => exact keysDistinct_acquire ih hfresh
    | destroy _ _ ih => exact keysDistinct_release ih
  · intro i k hik
    constructor
    · rw [keyRelease, List.get?_set_eq, hik]
      rfl
    · intro j hj
      rw [keyRelease]
      exact List.get?_set_ne _ _ (fun he => hj he.symm)

/-- Witness for C9 at the concrete reachable key vector `[some 5]`. -/
theorem key_slot_distinctness_witness :
    KeysDistinct (keyAcquire ([] : List (Option Nat)) 5).2 ∧
    (∀ i k, (keyAcquire ([] : List (Option Nat)) 5).2.get? i = some (some k) →
      (keyRelease (keyAcquire ([] : List (Option Nat)) 5).2 i).get? i = some none ∧
      ∀ j, j ≠ i →
        (keyRelease (keyAcquire ([] : List (Option Nat)) 5).2 i).get? j
          = (keyAcquire ([] : List (Option Nat)) 5).2.get? j) :=
  key_slot_distinctness (keyAcquire ([] : List (Option Nat)) 5).2
    (KeysReachable.create KeysReachable.init (by simp))

/-!
`DialectContext::make` and `~DialectContext`.  The trailing
`Dialect *[dialectArraySize]` array of the block is modelled as a
`List (Option K)`; `K` is the identity of a constructed dialect object
(the result of `desc.make(context)`).
-/

/-- A `DialectDescriptor`: the slot index together with the object its
`make` factory produces for the context at hand. -/
structure DialectDescriptor (K : Type) where
  index : Nat
  make : K
deriving DecidableEq, Repr

/-- The `dialectArraySize` computation of `DialectContext::make`:
`max(desc.index + 1)` over all descriptors, starting from 0. -/
def dialectArraySize {K : Type} (dialects : List (DialectDescriptor K)) : Nat :=
  dialects.foldl (fun acc desc => max acc (desc.index + 1)) 0

/-- The write loop of `DialectContext::make`:
`dialectArray[desc.index] = desc.make(context)` for each descriptor in
order, starting from the given array. -/
def writeDialects {K : Type} (arr : List (Option K))
    (dialects : List (DialectDescriptor K)) : List (Option K) :=
  dialects.foldl (fun a desc => a.set desc.index (some desc.make)) arr

/-- `DialectContext::make`: allocate `dialectArraySize` slots, fill them
with null (`std::uninitialized_fill_n`), then run the write loop. -/
def DialectContext.make {K : Type} (dialects : List (DialectDescriptor K)) :
    List (Option K) :=
  writeDialects (List.replicate (dialectArraySize dialects) none) dialects

lemma length_writeDialects {K : Type} (dialects : List (DialectDescriptor K))
    (arr : List (Option K)) :
    (writeDialects arr dialects).length = arr.length := by
  induction dialects generalizing arr with
  | nil => rfl
  | cons d rest ih => simpa [writeDialects] using ih (arr.set d.index (some d.make))

lemma writeDialects_get_untouched {K : Type} (dialects : List (DialectDescriptor K))
    (arr : List (Option K)) (i : Nat) (hi : ∀ d ∈ dialects, d.index ≠ i) :
    (writeDialects arr dialects).get? i = arr.get? i := by
  induction dialects generalizing arr with
  | nil => rfl
  | cons d rest ih =>
    have hd : d.index ≠ i := hi d (by simp)
    have hrest : ∀ d' ∈ rest, d'.index ≠ i :=
      fun d' hd' => hi d' (List.mem_cons_of_mem _ hd')
    calc (writeDialects (arr.set d.index (some d.make)) rest).get? i
        = (arr.set d.index (some d.make)).get? i := ih _ hrest
      _ = arr.get? i := List.get?_set_ne _ _ hd

lemma writeDialects_get_written {K : Type} (dialects : List (DialectDescriptor K))
    (arr : List (Option K))
    (hnd : (dialects.map DialectDescriptor.index).Nodup) :
    ∀ d ∈ dialects, d.index < arr.length →
      (writeDialects arr dialects).get? d.index = some (some d.make) := by
  induction dialects generalizing arr with
  | nil => intro d hd; simp at hd
  | cons d0 rest ih =>
    intro d hd hlt
    rcases List.mem_cons.mp hd with rfl | hd'
    · have hrest : ∀ d' ∈ rest, d'.index ≠ d.index := by
        intro d' hd' he
        exact (List.nodup_cons.mp hnd).1 (he ▸ List.mem_map_of_mem DialectDescriptor.index hd')
      calc (writeDialects (arr.set d.index (some d.make)) rest).get? d.index
          = (arr.set d.index (some d.make)).get? d.index :=
            writeDialects_get_untouched rest _ d.index hrest
        _ = some (some d.make) := by
            rw [List.get?_set_eq]
            rw [(List.get?_eq_some.mpr ⟨hlt, rfl⟩ : arr.get? d.index = some (arr.get ⟨d.index, hlt⟩))]
            rfl
    · have hlt' : d.index < (arr.set d0.index (some d0.make)).length := by
        simpa using hlt
      exact ih _ (List.nodup_cons.mp hnd).2 d hd' hlt'

lemma dialectFold_le {K : Type} (dialects : List (DialectDescriptor K)) (acc : Nat) :
    acc ≤ dialects.foldl (fun a desc => max a (desc.index + 1)) acc := by
  induction dialects generalizing acc with
  | nil => exact le_refl acc
  | cons d rest ih => exact le_trans (Nat.le_max_left _ _) (ih _)

lemma dialectFold_bound {K : Type} (dialects : List (DialectDescriptor K)) (acc : Nat) :
    ∀ d ∈ dialects,
      d.index + 1 ≤ dialects.foldl (fun a desc => max a (desc.index + 1)) acc := by
  induction dialects generalizing acc with
  | nil => intro d hd; simp at hd
  | cons d0 rest ih =>
    intro d hd
    rcases List.mem_cons.mp hd with rfl | hd'
    · exact le_trans (Nat.le_max_right acc (d.index + 1)) (dialectFold_le rest _)
    · exact ih _ d hd'

lemma dialectFold_cases {K : Type} (dialects : List (DialectDescriptor K)) (acc : Nat) :
    dialects.foldl (fun a desc => max a (desc.index + 1)) acc = acc ∨
      ∃ d ∈ dialects,
        dialects.foldl (fun a desc => max a (desc.index + 1)) acc = d.index + 1 := by
  induction dialects generalizing acc with
  | nil => exact Or.inl rfl
  | cons d0 rest ih =>
    rcases ih (max acc (d0.index + 1)) with h | ⟨d, hd, h⟩
    · rcases le_total acc (d0.index + 1) with hle | hle
      · exact Or.inr ⟨d0, by simp, by
          rw [List.foldl_cons] at *
          rw [h, max_eq_right hle]⟩
      · exact Or.inl (by rw [List.foldl_cons, h, max_eq_left hle])
    · exact Or.inr ⟨d, List.mem_cons_of_mem _ hd, by rw [List.foldl_cons]; exact h⟩

lemma get?_replicate_none {K : Type} {n i : Nat} (hi : i < n) :
    (List.replicate n (none : Option K)).get? i = some none := by
  rw [List.get?_eq_getElem?, List.getElem?_replicate]
  simp [hi]

/-- Claim C6: the block allocated by `DialectContext::make` has exactly
`max(supplied slot indices) + 1` slots (0 for the empty descriptor list):
every supplied index is below the size and the size is one above some
supplied index; every slot whose index no descriptor supplies holds null;
and (for a descriptor list with pairwise-distinct indices, as the spec's
"set of (slot index, object) pairs" provides) each descriptor's object
sits in its slot. -/
theorem make_block_sizing {K : Type} (dialects : List (DialectDescriptor K)) :
    (DialectContext.make dialects).length = dialectArraySize dialects ∧
    (dialects = [] → dialectArraySize dialects = 0) ∧
    (∀ d ∈ dialects, d.index < dialectArraySize dialects) ∧
    (dialects ≠ [] → ∃ d ∈ dialects, dialectArraySize dialects = d.index + 1) ∧
    (∀ i, i < dialectArraySize dialects → (∀ d ∈ dialects, d.index ≠ i) →
      (DialectContext.make dialects).get? i = some none) ∧
    ((dialects.map DialectDescriptor.index).Nodup →
      ∀ d ∈ dialects,
        (DialectContext.make dialects).get? d.index = some (some d.make)) := by
  refine ⟨?_, ?_, ?_, ?_, ?_, ?_⟩
  · rw [DialectContext.make, length_writeDialects, List.length_replicate]
  · intro he; rw [he]; rfl
  · intro d hd
    exact Nat.lt_of_succ_le (dialectFold_bound dialects 0 d hd)
  · intro hne
    rcases dialectFold_cases dialects 0 with h | h
    · rcases List.exists_mem_of_ne_nil dialects hne with ⟨d, hd⟩
      have := dialectFold_bound dialects 0 d hd
      rw [h] at this
      exact absurd this (by simp)
    · exact h
  · intro i hi hno
    rw [DialectContext.make, writeDialects_get_untouched dialects _ i hno]
    exact get?_replicate_none hi
  · intro hnd d hd
    refine writeDialects_get_written dialects _ hnd d hd ?_
    rw [List.length_replicate]
    exact Nat.lt_of_succ_le (dialectFold_bound dialects 0 d hd)

/-- Witness for C6: the claim's example with supplied slots {0, 2}: the
block has 3 slots and slot 1 is null. -/
theorem make_block_sizing_witness :
    ((DialectContext.make [⟨0, 10⟩, ⟨2, 20⟩]).length
        = dialectArraySize [⟨0, 10⟩, ⟨2, 20⟩] ∧
      (([⟨0, 10⟩, ⟨2, 20⟩] : List (DialectDescriptor Nat)) = [] →
        dialectArraySize ([⟨0, 10⟩, ⟨2, 20⟩] : List (DialectDescriptor Nat)) = 0) ∧
      (∀ d ∈ ([⟨0, 10⟩, ⟨2, 20⟩] : List (DialectDescriptor Nat)),
        d.index < dialectArraySize [⟨0, 10⟩, ⟨2, 20⟩]) ∧
      (([⟨0, 10⟩, ⟨2, 20⟩] : List (DialectDescriptor Nat)) ≠ [] →
        ∃ d ∈ ([⟨0, 10⟩, ⟨2, 20⟩] : List (DialectDescriptor Nat)),
          dialectArraySize [⟨0, 10⟩, ⟨2, 20⟩] = d.index + 1) ∧
      (∀ i, i < dialectArraySize ([⟨0, 10⟩, ⟨2, 20⟩] : List (DialectDescriptor Nat)) →
        (∀ d ∈ ([⟨0, 10⟩, ⟨2, 20⟩] : List (DialectDescriptor Nat)), d.index ≠ i) →
        (DialectContext.make [⟨0, 10⟩, ⟨2, 20⟩]).get? i = some none) ∧
      ((([⟨0, 10⟩, ⟨2, 20⟩] : List (DialectDescriptor Nat)).map
          DialectDescriptor.index).Nodup →
        ∀ d ∈ ([⟨0, 10⟩, ⟨2, 20⟩] : List (DialectDescriptor Nat)),
          (DialectContext.make [⟨0, 10⟩, ⟨2, 20⟩]).get? d.index
            = some (some d.make))) ∧
    (DialectContext.make ([⟨0, 10⟩, ⟨2, 20⟩] : List (DialectDescriptor Nat))
        = [some 10, none, some 20]) :=
  ⟨make_block_sizing [⟨0, 10⟩, ⟨2, 20⟩], by decide⟩

/-- Abstract steps of `~DialectContext`: the `ContextMap::remove` call and
the `delete dialectArray[i]` of slot `i`'s owned object. -/
inductive DtorEvent where
  | removeRegistry : DtorEvent
  | destroySlot : Nat → DtorEvent
deriving DecidableEq, Repr

/-- The event trace of `~DialectContext`: first `ContextMap::remove`, then
the deletion loop over the slot array (deleting a null slot performs no
destruction, so it emits no event). -/
def dtorEvents {K : Type} (arr : List (Option K)) : List DtorEvent :=
  DtorEvent.removeRegistry ::
    (List.range arr.length).filterMap (fun i =>
      match arr.get? i with
      | some (some _) => some (DtorEvent.destroySlot i)
      | _ => none)

/-- `~DialectContext` as a whole: its event trace together with its effect
on the global registry state. -/
def destroyDialectContext {K : Type} (s : ContextMap) (h : Handle) (b : Block)
    (arr : List (Option K)) : List DtorEvent × ContextMap :=
  (dtorEvents arr, s.remove h b)

/-- Claim C7: destruction removes the registry entry first (event 0), every
slot destruction comes strictly after it, destroyed slots are exactly the
non-null ones (null slots are skipped harmlessly), and the registry effect
is exactly `ContextMap::remove`. -/
theorem dialectContext_teardown_order {K : Type} (s : ContextMap) (h : Handle)
    (b : Block) (arr : List (Option K)) :
    (destroyDialectContext s h b arr).1.get? 0 = some DtorEvent.removeRegistry ∧
    (∀ n i, (destroyDialectContext s h b arr).1.get? n
        = some (DtorEvent.destroySlot i) → 0 < n) ∧
    (∀ i, DtorEvent.destroySlot i ∈ (destroyDialectContext s h b arr).1 ↔
        ∃ x, arr.get? i = some (some x)) ∧
    (destroyDialectContext s h b arr).2 = s.remove h b := by
  refine ⟨rfl, ?_, ?_, rfl⟩
  · intro n i hn
    cases n with
    | zero =>
      rw [destroyDialectContext, dtorEvents] at hn
      exact absurd (Option.some.inj hn) (by simp)
    | succ m => exact Nat.succ_pos m
  · intro i
    rw [destroyDialectContext, dtorEvents]
    constructor
    · intro hmem
      rcases List.mem_cons.mp hmem with h1 | h1
      · exact absurd h1 (by simp)
      · rcases List.mem_filterMap.mp h1 with ⟨j, _, hfj⟩
        cases hg : arr.get? j with
        | none => rw [hg] at hfj; exact absurd hfj (by simp)
        | some o =>
          cases o with
          | none => rw [hg] at hfj; exact absurd hfj (by simp)
          | some x =>
            rw [hg] at hfj
            have hji : j = i := by simpa using hfj
            exact ⟨x, hji ▸ hg⟩
    · rintro ⟨x, hx⟩
      apply List.mem_cons_of_mem
      apply List.mem_filterMap.mpr
      obtain ⟨hlt, -⟩ := List.get?_eq_some.mp hx
      exact ⟨i, List.mem_range.mpr hlt, by rw [hx]⟩

/-- Witness for C7 at a concrete state and slot array with a null slot. -/
theorem dialectContext_teardown_order_witness :
    (destroyDialectContext exampleWarm 1 7 [some 4, none, some 6]).1.get? 0
        = some DtorEvent.removeRegistry ∧
    (∀ n i, (destroyDialectContext exampleWarm 1 7 [some 4, none, some 6]).1.get? n
        = some (DtorEvent.destroySlot i) → 0 < n) ∧
    (∀ i, DtorEvent.destroySlot i
          ∈ (destroyDialectContext exampleWarm 1 7 [some 4, none, some 6]).1 ↔
        ∃ x, ([some 4, none, some 6] : List (Option Nat)).get? i = some (some x)) ∧
    (destroyDialectContext exampleWarm 1 7 [some 4, none, some 6]).2
        = exampleWarm.remove 1 7 :=
  dialectContext_teardown_order exampleWarm 1 7 ([some 4, none, some 6] : List (Option Nat))

/-!
The string classification predicates of `llvm_dialects::detail`.
`llvm::StringRef` is modelled as `List Char`; `fn->getName()` is the
`name` field of an `IRFunction`; `StringRef::startswith(name)` is
"the first `name.length` characters equal `name`"
(`fnName.take nm.length = nm`).
-/

/-- An `llvm::Function`, reduced to the only part the predicates read:
its name. -/
structure IRFunction where
  name : List Char
deriving DecidableEq, Repr

/-- `isSimpleOperationDecl`: `fn->getName() == name`, character for
character. -/
def isSimpleOperationDecl (fn : IRFunction) (nm : List Char) : Bool :=
  fn.name == nm

/-- `isOverloadedOperationDecl`: false when the base name is at least as
long as the function name; false when the function name does not start
with the base name; otherwise true exactly when the character right after
the base-name part is `'.'`. -/
def isOverloadedOperationDecl (fn : IRFunction) (nm : List Char) : Bool :=
  if nm.length ≥ fn.name.length then false
  else if fn.name.take nm.length ≠ nm then false
  else decide (fn.name.get? nm.length = some '.')

/-- An `llvm::CallInst`, reduced to `getCalledFunction()`: `none` models
an indirect call, where no called function is statically known. -/
structure CallInst where
  calledFunction : Option IRFunction
deriving DecidableEq, Repr

/-- `isSimpleOperation`: classify the statically called function if there
is one, otherwise return false. -/
def isSimpleOperation (i : CallInst) (nm : List Char) : Bool :=
  match i.calledFunction with
  | some fn => isSimpleOperationDecl fn nm
  | none => false

/-- `isOverloadedOperation`: classify the statically called function if
there is one, otherwise return false. -/
def isOverloadedOperation (i : CallInst) (nm : List Char) : Bool :=
  match i.calledFunction with
  | some fn => isOverloadedOperationDecl fn nm
  | none => false

/-- Claim C8: `isSimpleOperationDecl` holds exactly when the function name
equals the base name character for character, and
`isOverloadedOperationDecl` holds exactly when the function name is
strictly longer than the base name, begins with it, and the very next
character is `'.'` — equivalently, when the function name is the base
name followed by `'.'` and an arbitrary tail. -/
theorem operation_name_classification (fn : IRFunction) (nm : List Char) :
    (isSimpleOperationDecl fn nm = true ↔ fn.name = nm) ∧
    (isOverloadedOperationDecl fn nm = true ↔
      (nm.length < fn.name.length ∧ fn.name.take nm.length = nm ∧
        fn.name.get? nm.length = some '.')) ∧
    (isOverloadedOperationDecl fn nm = true ↔
      ∃ rest, fn.name = nm ++ '.' :: rest) := by
  have hchar : isOverloadedOperationDecl fn nm = true ↔
      (nm.length < fn.name.length ∧ fn.name.take nm.length = nm ∧
        fn.name.get? nm.length = some '.') := by
    constructor
    · intro hb
      by_cases h1 : nm.length ≥ fn.name.length
      · rw [isOverloadedOperationDecl, if_pos h1] at hb
        exact absurd hb (by simp)
      · by_cases h2 : fn.name.take nm.length ≠ nm
        · rw [isOverloadedOperationDecl, if_neg h1, if_pos h2] at hb
          exact absurd hb (by simp)
        · rw [isOverloadedOperationDecl, if_neg h1, if_neg h2] at hb
          exact ⟨lt_of_not_le h1, not_not.mp h2, of_decide_eq_true hb⟩
    · rintro ⟨hl, ht, hc⟩
      rw [isOverloadedOperationDecl, if_neg (not_le.mpr hl),
        if_neg (not_not.mpr ht)]
      exact decide_eq_true hc
  refine ⟨by simp [isSimpleOperationDecl], hchar, hchar.trans ?_⟩
  constructor
  · rintro ⟨hl, ht, hc⟩
    obtain ⟨hlt, hget⟩ := List.get?_eq_some.mp hc
    refine ⟨fn.name.drop (nm.length + 1), ?_⟩
    calc fn.name = fn.name.take nm.length ++ fn.name.drop nm.length :=
          (List.take_append_drop nm.length fn.name).symm
      _ = nm ++ '.' :: fn.name.drop (nm.length + 1) := by
          rw [ht, List.drop_eq_get_cons hlt, hget]
  · rintro ⟨rest, hrest⟩
    have hl : nm.length < fn.name.length := by
      rw [hrest]
      simp
    have ht : fn.name.take nm.length = nm := by
      rw [hrest]
      exact List.take_left nm ('.' :: rest)
    have hc : fn.name.get? nm.length = some '.' := by
      rw [hrest, List.get?_append_right (le_refl nm.length)]
      simp
    exact ⟨hl, ht, hc⟩

/-- Witness for C8 at the concrete names "foo.i32" and base "foo". -/
theorem operation_name_classification_witness :
    (isSimpleOperationDecl ⟨['f', 'o', 'o', '.', 'i']⟩ ['f', 'o', 'o'] = true ↔
      ['f', 'o', 'o', '.', 'i'] = ['f', 'o', 'o']) ∧
    (isOverloadedOperationDecl ⟨['f', 'o', 'o', '.', 'i']⟩ ['f', 'o', 'o'] = true ↔
      ((['f', 'o', 'o'] : List Char).length
          < (['f', 'o', 'o', '.', 'i'] : List Char).length ∧
        (['f', 'o', 'o', '.', 'i'] : List Char).take
            (['f', 'o', 'o'] : List Char).length = ['f', 'o', 'o'] ∧
        (['f', 'o', 'o', '.', 'i'] : List Char).get?
            (['f', 'o', 'o'] : List Char).length = some '.')) ∧
    (isOverloadedOperationDecl ⟨['f', 'o', 'o', '.', 'i']⟩ ['f', 'o', 'o'] = true ↔
      ∃ rest, (['f', 'o', 'o', '.', 'i'] : List Char)
          = ['f', 'o', 'o'] ++ '.' :: rest) :=
  operation_name_classification ⟨['f', 'o', 'o', '.', 'i']⟩ ['f', 'o', 'o']

/-- Claim C10: for a call instruction with no statically known called
function (an indirect call), both `isSimpleOperation` and
`isOverloadedOperation` return false for every base name. -/
theorem indirect_call_classification (i : CallInst) (nm : List Char)
    (hi : i.calledFunction = none) :
    isSimpleOperation i nm = false ∧ isOverloadedOperation i nm = false := by
  cases i
  cases hi
  exact ⟨rfl, rfl⟩

/-- Witness for C10 at a concrete indirect call. -/
theorem indirect_call_classification_witness :
    (CallInst.mk none).calledFunction = none ∧
    isSimpleOperation (CallInst.mk none) ['f'] = false ∧
    isOverloadedOperation (CallInst.mk none) ['f'] = false :=
  ⟨rfl, indirect_call_classification (CallInst.mk none) ['f'] rfl⟩

end LLVMDialects
